import Mathlib

/-
Verification development for the loxize bytecode core (src/src/bytecode.rs).

The embedding mirrors the Rust source:
  - `Op`, `LoxValue` and the typestate markers live in repository modules that
    are not part of the given sources; they are modelled from the spec where
    noted.
  - Raw pointers into the code buffer are modelled as the pointed-to byte
    sequence paired with an offset; the null pointer is `none`.
  - Panicking operations (`unwrap`, slice indexing) and undefined behaviour
    (out-of-bounds pointer reads) are modelled as `Option`, with `none` for
    the failing case.
  - `u8` bytes are `Nat` values (callers only ever store values below 256 and
    no arithmetic is performed on them); `i32` line numbers are `Int`.
-/

namespace Loxize

/-- Modelled from the spec: the `opcodes` module is not among the given
sources.  The spec fixes a closed instruction set with three opcodes, each
with a stable one-byte tag, a fixed operand count (`Return`/`Negate`: 0,
`LoadConstant` small: 1) and a display mnemonic.  Concrete tag values are not
fixed by the spec; any injective assignment is faithful. -/
inductive Op where
  | Ret
  | Negate
  | ConstantSmall
deriving DecidableEq, Repr

/-- Modelled from the spec: the wire tag of each opcode (one byte). -/
def Op.tag : Op → Nat
  | Op.Ret => 0
  | Op.Negate => 1
  | Op.ConstantSmall => 2

/-- Modelled from the spec: `Op::try_from_primitive` (num_enum), decoding a
byte to an opcode; every byte maps to at most one opcode, unmapped bytes are
an error. -/
def Op.try_from_primitive : Nat → Option Op
  | 0 => some Op.Ret
  | 1 => some Op.Negate
  | 2 => some Op.ConstantSmall
  | _ => none

/-- Modelled from the spec: `Op::operand_count`, the fixed number of operand
bytes following the tag byte. -/
def Op.operand_count : Op → Nat
  | Op.Ret => 0
  | Op.Negate => 0
  | Op.ConstantSmall => 1

/-- Modelled from the spec: the `Display` form of an opcode, used only by the
disassembler.  The mnemonics are the ones the spec documents in its expected
disassembly output. -/
def Op.render : Op → String
  | Op.Ret => "OP_RETURN"
  | Op.Negate => "OP_NEGATE"
  | Op.ConstantSmall => "OP_CONSTANT"

/-- Modelled from the spec: the `lox_value` module is not among the given
sources; constants are opaque runtime values whose only relevant behaviour
here is their `Display` form, so a value is modelled as its display string.
(The spec example value `1.0` displays as "1", matching Rust `f64` display.) -/
structure LoxValue where
  display : String
deriving DecidableEq, Repr

/-- Modelled from the spec: the `states` module is not among the given
sources; it provides the two typestate markers.  The Rust unit types
`Uninitialized` and `Initialized` are modelled as the two constructors of a
state index, so that a cursor type instantiated at one state is a different
type from the other. -/
inductive IpState where
  | Uninitialized
  | Initialized
deriving DecidableEq, Repr

/-- Embedding of `Ip<S>`: a raw `*const u8` tagged with a typestate.  The
pointer is modelled as the pointed-to byte sequence plus an offset; `none` is
the null pointer.  The zero-sized Rust marker field `state: S` becomes the
type index. -/
structure Ip (S : IpState) where
  ptr : Option (List Nat × Nat)
deriving DecidableEq, Repr

/-- Embedding of `Ip::create`: binds a cursor to a pinned code slice at
offset 0.  The source asserts the slice pointer is non-null, which always
holds in this model. -/
def Ip.create (code : List Nat) : Ip IpState.Initialized :=
  { ptr := some (code, 0) }

/-- Embedding of `Ip::create_uninitialized`: a cursor holding the null
pointer, in the `Uninitialized` state. -/
def Ip.create_uninitialized : Ip IpState.Uninitialized :=
  { ptr := none }

/-- Embedding of `Ip<Initialized>::get_u8`: reads the byte at the pointer.
Reading through null or past the end of the buffer is undefined behaviour in
the source and yields `none` here. -/
def Ip.get_u8 (ip : Ip IpState.Initialized) : Option Nat :=
  ip.ptr.bind fun p => p.1[p.2]?

/-- Embedding of `Ip<Initialized>::get_op`: reads the byte at the pointer and
decodes it, with `unwrap` panicking (`none`) on an unmapped byte. -/
def Ip.get_op (ip : Ip IpState.Initialized) : Option Op :=
  ip.get_u8.bind Op.try_from_primitive

/-- Embedding of `Ip<Initialized>::inc`: pointer arithmetic, adding `offset`
bytes to the current position. -/
def Ip.inc (ip : Ip IpState.Initialized) (offset : Nat) : Ip IpState.Initialized :=
  { ptr := ip.ptr.map fun p => (p.1, p.2 + offset) }

/-- Embedding of `Bytecode`: the chunk with its three parallel sequences. -/
structure Bytecode where
  code : List Nat
  constants : List LoxValue
  lines : List Int
deriving DecidableEq, Repr

/-- Embedding of `Bytecode::new`. -/
def Bytecode.new : Bytecode :=
  { code := [], constants := [], lines := [] }

/-- Embedding of `Bytecode::get_base_ip`: a bound cursor at offset 0 into the
code buffer of the chunk. -/
def Bytecode.get_base_ip (bc : Bytecode) : Ip IpState.Initialized :=
  Ip.create bc.code

/-- Embedding of `Bytecode::get_code_len`. -/
def Bytecode.get_code_len (bc : Bytecode) : Nat :=
  bc.code.length

/-- Embedding of `Bytecode::write_u8`: appends one byte to `code` and one
line entry to `lines`. -/
def Bytecode.write_u8 (bc : Bytecode) (byte : Nat) (line : Int) : Bytecode :=
  { bc with code := bc.code ++ [byte], lines := bc.lines ++ [line] }

/-- Embedding of `Bytecode::add_constant`: pushes the value, then returns the
new length minus one.  Rust mutates in place; here the updated chunk is
returned alongside the index. -/
def Bytecode.add_constant (bc : Bytecode) (value : LoxValue) : Bytecode × Nat :=
  let bc2 : Bytecode := { bc with constants := bc.constants ++ [value] }
  (bc2, bc2.constants.length - 1)

/-- Embedding of `Bytecode::get_constant`: `constants.get(index).unwrap()`,
where the panic on an out-of-range index is `none`; `clone` is the
identity. -/
def Bytecode.get_constant (bc : Bytecode) (index : Nat) : Option LoxValue :=
  bc.constants[index]?

/-- Left-pads a string with the given character to the given width, the
behaviour of a Rust right-aligned format specifier; strings at or above the
width are unchanged. -/
def padLeft (c : Char) (w : Nat) (s : String) : String :=
  String.mk (List.replicate (w - s.length) c) ++ s

/-- Rust `{n:04}` on an unsigned integer: decimal, zero-padded to width 4. -/
def fmtNat4 (n : Nat) : String :=
  padLeft '0' 4 (toString n)

/-- Rust `{line: >4}` on an `i32`: decimal, space-padded to width 4. -/
def fmtLine4 (i : Int) : String :=
  padLeft ' ' 4 (toString i)

/-- Rust `{op: <16}`: the opcode mnemonic left-aligned, space-padded on the
right to width 16. -/
def padRight16 (s : String) : String :=
  s ++ String.mk (List.replicate (16 - s.length) ' ')

/-- Embedding of the per-opcode rendering inside `Bytecode::disassemble`:
for `ConstantSmall` it reads the operand byte `code[op_index + 1]` and the
constant `constants[operand]` (slice indexing, so a panic - `none` - when
either is out of range); `Ret` and `Negate` render as their mnemonic. -/
def Bytecode.instrText (bc : Bytecode) (op_index : Nat) : Op → Option String
  | Op.ConstantSmall =>
    match bc.code[op_index + 1]? with
    | none => none
    | some constant =>
      match bc.constants[constant]? with
      | none => none
      | some value =>
        some (padRight16 (Op.render Op.ConstantSmall) ++ " " ++ fmtNat4 constant
          ++ " " ++ value.display)
  | Op.Ret => some (Op.render Op.Ret)
  | Op.Negate => some (Op.render Op.Negate)

/-- Embedding of the `while op_index < self.code.len()` loop of
`Bytecode::disassemble`, producing the text emitted from `op_index` onwards.
Each iteration prints the zero-padded offset, then the line column (the
placeholder when `op_index > 0` and `lines[op_index] == lines[op_index - 1]`,
the right-aligned line number otherwise; the `lines` indexing panics -
`none` - when out of range), then the instruction text.  An unmapped tag
byte prints the fixed marker and sets `op_index` to the code length, ending
the loop. -/
def Bytecode.disassembleLoop (bc : Bytecode) (op_index : Nat) : Option String :=
  if h : op_index < bc.code.length then
    match bc.lines[op_index]? with
    | none => none
    | some l =>
      let front : String := fmtNat4 op_index ++ " " ++
        (if 0 < op_index ∧ bc.lines[op_index - 1]? = some l then "   | "
         else fmtLine4 l ++ " ")
      match Op.try_from_primitive bc.code[op_index] with
      | none => some (front ++ "Illegal Instruction" ++ "\n")
      | some op =>
        match bc.instrText op_index op with
        | none => none
        | some txt =>
          match Bytecode.disassembleLoop bc (op_index + 1 + op.operand_count) with
          | none => none
          | some rest => some (front ++ txt ++ "\n" ++ rest)
  else some ""
termination_by bc.code.length - op_index
decreasing_by
  simp_wf
  omega

/-- Embedding of `Bytecode::disassemble`: the header line followed by the
loop output; `none` when the loop panics. -/
def Bytecode.disassemble (bc : Bytecode) (name : String) : Option String :=
  match Bytecode.disassembleLoop bc 0 with
  | none => none
  | some body => some ("== " ++ name ++ " ==" ++ "\n" ++ body)

/-! Derived definitions used to state the claims: construction sequences,
batch helpers, well-formed instruction streams and the two concrete example
chunks. -/

/-- One construction step the compiler can perform on a chunk: a `write_u8`
call or an `add_constant` call. -/
inductive BuildOp where
  | write (byte : Nat) (line : Int)
  | addc (v : LoxValue)
deriving DecidableEq, Repr

/-- Applies one construction step to a chunk. -/
def Bytecode.applyBuildOp (bc : Bytecode) : BuildOp → Bytecode
  | BuildOp.write b l => bc.write_u8 b l
  | BuildOp.addc v => (bc.add_constant v).1

/-- Runs a sequence of construction steps, left to right. -/
def Bytecode.runBuild (bc : Bytecode) (ops : List BuildOp) : Bytecode :=
  ops.foldl Bytecode.applyBuildOp bc

/-- Number of `write_u8` calls in a construction sequence. -/
def countWrites : List BuildOp → Nat
  | [] => 0
  | BuildOp.write _ _ :: rest => countWrites rest + 1
  | BuildOp.addc _ :: rest => countWrites rest

/-- Number of `add_constant` calls in a construction sequence. -/
def countAdds : List BuildOp → Nat
  | [] => 0
  | BuildOp.write _ _ :: rest => countAdds rest
  | BuildOp.addc _ :: rest => countAdds rest + 1

/-- Adds a list of values with `add_constant`, one after the other, and
collects the returned indices. -/
def Bytecode.addAll (bc : Bytecode) : List LoxValue → Bytecode × List Nat
  | [] => (bc, [])
  | v :: rest =>
    let r := bc.add_constant v
    let rr := Bytecode.addAll r.1 rest
    (rr.1, r.2 :: rr.2)

/-- Writes a list of (byte, line) pairs with `write_u8`, one after the
other. -/
def Bytecode.writeAll (bc : Bytecode) (entries : List (Nat × Int)) : Bytecode :=
  entries.foldl (fun b e => b.write_u8 e.1 e.2) bc

/-- Well-formed instruction stream from position `i` to the end of the code
of a chunk: every tag byte decodes, every instruction renders without a
panic (its operand byte exists and any referenced constant is in range), and
instruction boundaries land exactly on the code length. -/
inductive DisWF (bc : Bytecode) : Nat → Prop where
  | done : DisWF bc bc.code.length
  | step (i b : Nat) (op : Op)
      (hb : bc.code[i]? = some b)
      (hdec : Op.try_from_primitive b = some op)
      (htxt : bc.instrText i op ≠ none)
      (hrest : DisWF bc (i + 1 + op.operand_count)) : DisWF bc i

/-- The chunk of the disassembly example in the spec: constant `1.0` added to
the pool, then `LoadConstant 0` written at line 1, `Negate` at line 1 and
`Return` at line 2. -/
def c2Chunk : Bytecode :=
  ((((Bytecode.new.add_constant { display := "1" }).1.write_u8 (Op.tag Op.ConstantSmall) 1).write_u8
      0 1).write_u8 (Op.tag Op.Negate) 1).write_u8 (Op.tag Op.Ret) 2

/-- A chunk whose `LoadConstant` tag byte is written at line 1 but whose
operand byte is written at line 5, followed by `Return` at line 5. -/
def c6Chunk : Bytecode :=
  (((Bytecode.new.add_constant { display := "1" }).1.write_u8 (Op.tag Op.ConstantSmall) 1).write_u8
      0 5).write_u8 (Op.tag Op.Ret) 5

/-! Helper lemmas. -/

/-- Decoding the tag of an opcode yields that opcode. -/
theorem Op.tag_roundtrip (op : Op) : Op.try_from_primitive (Op.tag op) = some op := by
  cases op <;> rfl

/-- Loop exit: once `op_index` reaches the code length the loop stops. -/
theorem disassembleLoop_stop (bc : Bytecode) (i : Nat) (h : bc.code.length ≤ i) :
    Bytecode.disassembleLoop bc i = some "" := by
  unfold Bytecode.disassembleLoop
  rw [dif_neg (Nat.not_lt.mpr h)]

/-- Loop iteration that decodes and renders one instruction, then continues
at the next tag byte. -/
theorem disassembleLoop_step (bc : Bytecode) (i : Nat) (l : Int) (b : Nat) (op : Op)
    (txt : String)
    (h : i < bc.code.length)
    (hl : bc.lines[i]? = some l)
    (hb : bc.code[i]? = some b)
    (hop : Op.try_from_primitive b = some op)
    (htxt : bc.instrText i op = some txt) :
    Bytecode.disassembleLoop bc i =
      (Bytecode.disassembleLoop bc (i + 1 + op.operand_count)).map
        (fun rest => fmtNat4 i ++ " " ++
          (if 0 < i ∧ bc.lines[i - 1]? = some l then "   | " else fmtLine4 l ++ " ") ++
          txt ++ "\n" ++ rest) := by
  have hb' : bc.code[i] = b := (List.getElem?_eq_some.mp hb).2
  conv_lhs => unfold Bytecode.disassembleLoop
  rw [dif_pos h]
  simp only [hl, hb', hop, htxt]
  cases Bytecode.disassembleLoop bc (i + 1 + op.operand_count) <;> simp

/-- Loop iteration that hits an unmapped tag byte: the fixed marker is
printed and the loop ends without scanning further. -/
theorem disassembleLoop_illegal (bc : Bytecode) (i : Nat) (l : Int) (b : Nat)
    (h : i < bc.code.length)
    (hl : bc.lines[i]? = some l)
    (hb : bc.code[i]? = some b)
    (hop : Op.try_from_primitive b = none) :
    Bytecode.disassembleLoop bc i =
      some (fmtNat4 i ++ " " ++
        (if 0 < i ∧ bc.lines[i - 1]? = some l then "   | " else fmtLine4 l ++ " ") ++
        "Illegal Instruction" ++ "\n") := by
  have hb' : bc.code[i] = b := (List.getElem?_eq_some.mp hb).2
  conv_lhs => unfold Bytecode.disassembleLoop
  rw [dif_pos h]
  simp only [hl, hb', hop]

/-- Loop iteration whose instruction rendering panics (missing operand byte
or out-of-range constant index). -/
theorem disassembleLoop_notxt (bc : Bytecode) (i : Nat) (l : Int) (b : Nat) (op : Op)
    (h : i < bc.code.length)
    (hl : bc.lines[i]? = some l)
    (hb : bc.code[i]? = some b)
    (hop : Op.try_from_primitive b = some op)
    (htxt : bc.instrText i op = none) :
    Bytecode.disassembleLoop bc i = none := by
  have hb' : bc.code[i] = b := (List.getElem?_eq_some.mp hb).2
  conv_lhs => unfold Bytecode.disassembleLoop
  rw [dif_pos h]
  simp only [hl, hb', hop, htxt]

/-- Lengths of the three sequences after running a construction sequence. -/
theorem runBuild_lengths (ops : List BuildOp) (bc : Bytecode) :
    (Bytecode.runBuild bc ops).code.length = bc.code.length + countWrites ops ∧
    (Bytecode.runBuild bc ops).lines.length = bc.lines.length + countWrites ops ∧
    (Bytecode.runBuild bc ops).constants.length = bc.constants.length + countAdds ops := by
  induction ops generalizing bc with
  | nil => simp [Bytecode.runBuild, countWrites, countAdds]
  | cons o rest ih =>
    cases o with
    | write b l =>
      have h := ih (bc.write_u8 b l)
      simp [Bytecode.runBuild, Bytecode.applyBuildOp, Bytecode.write_u8, countWrites,
        countAdds] at h ⊢
      omega
    | addc v =>
      have h := ih (bc.add_constant v).1
      simp [Bytecode.runBuild, Bytecode.applyBuildOp, Bytecode.add_constant, countWrites,
        countAdds] at h ⊢
      omega

/-- Constant pool and returned indices after a batch of `add_constant`
calls. -/
theorem addAll_spec (vs : List LoxValue) (bc : Bytecode) :
    (Bytecode.addAll bc vs).1.constants = bc.constants ++ vs ∧
    (Bytecode.addAll bc vs).2 = (List.range vs.length).map (bc.constants.length + ·) := by
  induction vs generalizing bc with
  | nil => simp [Bytecode.addAll]
  | cons v rest ih =>
    have h := ih (bc.add_constant v).1
    constructor
    · rw [Bytecode.addAll]
      simp only [Bytecode.add_constant] at h ⊢
      rw [h.1]
      simp
    · rw [Bytecode.addAll]
      simp only [Bytecode.add_constant] at h ⊢
      rw [h.2]
      simp [List.range_succ_eq_map, List.map_map]
      intro a _
      omega

/-- Code bytes written by a batch of `write_u8` calls. -/
theorem writeAll_code (entries : List (Nat × Int)) (bc : Bytecode) :
    (bc.writeAll entries).code = bc.code ++ entries.map Prod.fst := by
  induction entries generalizing bc with
  | nil => simp [Bytecode.writeAll]
  | cons e rest ih =>
    have h := ih (bc.write_u8 e.1 e.2)
    simp [Bytecode.writeAll] at h ⊢
    rw [h]
    simp [Bytecode.write_u8]

/-- Instruction rendering only reads code bytes left of the code length and
the constant pool, so it is stable under extensions of the chunk. -/
theorem instrText_congr (bc bc2 : Bytecode) (i : Nat) (op : Op) (txt : String)
    (hc : ∀ j, j < bc.code.length → bc2.code[j]? = bc.code[j]?)
    (hk : bc2.constants = bc.constants)
    (h : bc.instrText i op = some txt) :
    bc2.instrText i op = some txt := by
  cases op with
  | Ret => exact h
  | Negate => exact h
  | ConstantSmall =>
    rw [Bytecode.instrText] at h ⊢
    cases hcc : bc.code[i + 1]? with
    | none => rw [hcc] at h; exact absurd h (by simp)
    | some c =>
      rw [hcc] at h
      have hi : i + 1 < bc.code.length := (List.getElem?_eq_some.mp hcc).1
      rw [hc (i + 1) hi, hcc, hk]
      exact h

/-- Main extension lemma: on a chunk whose code is well formed from `i` to
the end, the loop renders those instructions to some text `t`, and on any
chunk that agrees with it below the code length (with the same constants)
the loop from `i` produces `t` followed by whatever the loop of the bigger
chunk produces from the old code length on. -/
theorem disassembleLoop_extend (bc bc2 : Bytecode)
    (hlen : bc.lines.length = bc.code.length)
    (hc : ∀ j, j < bc.code.length → bc2.code[j]? = bc.code[j]?)
    (hl2 : ∀ j, j < bc.code.length → bc2.lines[j]? = bc.lines[j]?)
    (hk : bc2.constants = bc.constants) :
    ∀ i, DisWF bc i →
      ∃ t, Bytecode.disassembleLoop bc i = some t ∧
        Bytecode.disassembleLoop bc2 i =
          (Bytecode.disassembleLoop bc2 bc.code.length).map (fun r => t ++ r) := by
  intro i hwf
  induction hwf with
  | done =>
    refine ⟨"", disassembleLoop_stop bc bc.code.length (Nat.le_refl _), ?_⟩
    cases Bytecode.disassembleLoop bc2 bc.code.length <;>
      simp [String.empty_append]
  | step i b op hb hdec htxt hrest ih =>
    obtain ⟨txt, htxt'⟩ := Option.ne_none_iff_exists'.mp htxt
    have hi : i < bc.code.length := (List.getElem?_eq_some.mp hb).1
    have hil : i < bc.lines.length := by omega
    have hl : bc.lines[i]? = some bc.lines[i] := List.getElem?_eq_getElem hil
    obtain ⟨t, ht, ht2⟩ := ih
    refine ⟨(fmtNat4 i ++ " " ++
      (if 0 < i ∧ bc.lines[i - 1]? = some bc.lines[i] then "   | "
       else fmtLine4 bc.lines[i] ++ " ") ++ txt ++ "\n") ++ t, ?_, ?_⟩
    · rw [disassembleLoop_step bc i bc.lines[i] b op txt hi hl hb hdec htxt', ht]
      rfl
    · have hfront : (if 0 < i ∧ bc2.lines[i - 1]? = some bc.lines[i] then "   | "
          else fmtLine4 bc.lines[i] ++ " ") =
          (if 0 < i ∧ bc.lines[i - 1]? = some bc.lines[i] then "   | "
           else fmtLine4 bc.lines[i] ++ " ") := by
        by_cases h0 : 0 < i
        · rw [hl2 (i - 1) (by omega)]
        · simp [h0]
      rw [disassembleLoop_step bc2 i bc.lines[i] b op txt
        (by
          have h2 := hc i hi
          rw [hb] at h2
          exact (List.getElem?_eq_some.mp h2).1)
        (by rw [hl2 i hi]; exact hl)
        (by rw [hc i hi]; exact hb)
        hdec
        (instrText_congr bc bc2 i op txt hc hk htxt'), hfront, ht2]
      cases Bytecode.disassembleLoop bc2 bc.code.length <;>
        simp [String.append_assoc]

/-! Claim theorems. -/

/-- Claim C1: for every instruction written into a chunk via `write_u8` (one
tag byte followed by its operand bytes, at any position in the written byte
stream), a cursor obtained from `get_base_ip` and moved to the tag byte with
`inc` decodes, via `get_op` and `get_u8`, exactly the opcode and the operand
bytes that were written, and after `inc (1 + operand_count)` the cursor
points exactly at the start of the next instruction. -/
theorem C1_roundtrip (entries : List (Nat × Int)) (pre operands post : List Nat) (op : Op)
    (hsplit : entries.map Prod.fst = pre ++ Op.tag op :: (operands ++ post))
    (hlen : operands.length = op.operand_count) :
    ((Bytecode.writeAll Bytecode.new entries).get_base_ip.inc pre.length).get_op = some op ∧
    (∀ j, j < op.operand_count →
      ((Bytecode.writeAll Bytecode.new entries).get_base_ip.inc
        (pre.length + (1 + j))).get_u8 = operands[j]?) ∧
    ((Bytecode.writeAll Bytecode.new entries).get_base_ip.inc
        (pre.length + (1 + op.operand_count))).ptr =
      some ((Bytecode.writeAll Bytecode.new entries).code,
        pre.length + (1 + op.operand_count)) := by
  have hcode : (Bytecode.writeAll Bytecode.new entries).code =
      pre ++ Op.tag op :: (operands ++ post) := by
    rw [writeAll_code, hsplit]
    rfl
  refine ⟨?_, ?_, ?_⟩
  · rw [Ip.get_op, Ip.get_u8]
    simp only [Bytecode.get_base_ip, Ip.create, Ip.inc, Option.map_some', Option.some_bind,
      Nat.zero_add]
    rw [hcode]
    rw [List.getElem?_append_right (Nat.le_refl _)]
    simp [Op.tag_roundtrip]
  · intro j hj
    rw [Ip.get_u8]
    simp only [Bytecode.get_base_ip, Ip.create, Ip.inc, Option.map_some', Option.some_bind,
      Nat.zero_add]
    rw [hcode]
    rw [List.getElem?_append_right (by omega)]
    rw [show pre.length + (1 + j) - pre.length = 1 + j by omega]
    rw [show (1 + j) = j + 1 by omega]
    simp only [List.getElem?_cons_succ]
    rw [List.getElem?_append_left (by omega)]
  · simp only [Bytecode.get_base_ip, Ip.create, Ip.inc, Option.map_some', Nat.zero_add]

/-- Witness for C1 at a concrete chunk: a `Ret` at offset 0, then a
`LoadConstant` with operand byte 5 at offset 1, then a `Negate`. -/
theorem C1_roundtrip_witness :
    ((Bytecode.writeAll Bytecode.new [(0, 1), (2, 1), (5, 1), (1, 2)]).get_base_ip.inc 1).get_op =
      some Op.ConstantSmall ∧
    (∀ j, j < Op.ConstantSmall.operand_count →
      ((Bytecode.writeAll Bytecode.new [(0, 1), (2, 1), (5, 1), (1, 2)]).get_base_ip.inc
        (1 + (1 + j))).get_u8 = [5][j]?) ∧
    ((Bytecode.writeAll Bytecode.new [(0, 1), (2, 1), (5, 1), (1, 2)]).get_base_ip.inc
        (1 + (1 + Op.ConstantSmall.operand_count))).ptr =
      some ((Bytecode.writeAll Bytecode.new [(0, 1), (2, 1), (5, 1), (1, 2)]).code,
        1 + (1 + Op.ConstantSmall.operand_count)) :=
  C1_roundtrip [(0, 1), (2, 1), (5, 1), (1, 2)] [0] [5] [1] Op.ConstantSmall (by decide) (by decide)

/-- Claim C2: disassembling (with name "test") a chunk containing one
LoadConstant instruction at line 1 referencing constant index 0 with value
1.0, then one Negate at line 1, then one Return at line 2, produces exactly
the documented text: 4-digit zero-padded offsets, the line column, the
mnemonic left-padded to 16 columns, and the operand index for
LoadConstant. -/
theorem C2_disassemble_example : Bytecode.disassemble c2Chunk "test" =
    some "== test ==\n0000    1 OP_CONSTANT      0000 1\n0002    | OP_NEGATE\n0003    2 OP_RETURN\n" := by
  have h4 : Bytecode.disassembleLoop c2Chunk 4 = some "" :=
    disassembleLoop_stop _ _ (by decide)
  have h3 : Bytecode.disassembleLoop c2Chunk 3 = some "0003    2 OP_RETURN\n" := by
    rw [disassembleLoop_step c2Chunk 3 2 0 Op.Ret "OP_RETURN" (by decide) (by decide) (by decide)
      (by decide) (by decide)]
    rw [show Bytecode.disassembleLoop c2Chunk (3 + 1 + Op.Ret.operand_count) = some "" from h4]
    rfl
  have h2 : Bytecode.disassembleLoop c2Chunk 2 = some "0002    | OP_NEGATE\n0003    2 OP_RETURN\n" := by
    rw [disassembleLoop_step c2Chunk 2 1 1 Op.Negate "OP_NEGATE" (by decide) (by decide) (by decide)
      (by decide) (by decide)]
    rw [show Bytecode.disassembleLoop c2Chunk (2 + 1 + Op.Negate.operand_count) =
      some "0003    2 OP_RETURN\n" from h3]
    rfl
  have h0 : Bytecode.disassembleLoop c2Chunk 0 =
      some "0000    1 OP_CONSTANT      0000 1\n0002    | OP_NEGATE\n0003    2 OP_RETURN\n" := by
    rw [disassembleLoop_step c2Chunk 0 1 2 Op.ConstantSmall "OP_CONSTANT      0000 1" (by decide)
      (by decide) (by decide) (by decide) (by decide)]
    rw [show Bytecode.disassembleLoop c2Chunk (0 + 1 + Op.ConstantSmall.operand_count) =
      some "0002    | OP_NEGATE\n0003    2 OP_RETURN\n" from h2]
    rfl
  rw [Bytecode.disassemble, h0]
  rfl

/-- Claim C3: for every sequence of `write_u8` calls on a chunk created by
`new`, possibly interleaved with `add_constant` calls, `get_code_len` equals
the number of `write_u8` calls made so far, and `lines` has the same length
as `code`.  Because the statement is quantified over all construction
sequences, it holds at every intermediate point of any construction. -/
theorem C3_code_length (ops : List BuildOp) :
    (Bytecode.runBuild Bytecode.new ops).get_code_len = countWrites ops ∧
    (Bytecode.runBuild Bytecode.new ops).lines.length =
      (Bytecode.runBuild Bytecode.new ops).code.length := by
  have h := runBuild_lengths ops Bytecode.new
  refine ⟨?_, ?_⟩
  · rw [Bytecode.get_code_len, h.1]
    simp [Bytecode.new]
  · rw [h.1, h.2.1]
    rfl

/-- Claim C4: for every sequence of values added to a chunk created by `new`
via `add_constant`, the returned indices are 0, 1, 2, ... in order, and for
each i below the length of the sequence, `get_constant i` returns exactly the
i-th added value. -/
theorem C4_constants (vs : List LoxValue) :
    (Bytecode.addAll Bytecode.new vs).2 = List.range vs.length ∧
    ∀ i, i < vs.length →
      (Bytecode.addAll Bytecode.new vs).1.get_constant i = vs[i]? := by
  have h := addAll_spec vs Bytecode.new
  refine ⟨?_, ?_⟩
  · rw [h.2]
    simp [Bytecode.new]
  · intro i hi
    rw [Bytecode.get_constant, h.1]
    simp [Bytecode.new]

/-- Witness for C4 at the two-element value sequence. -/
theorem C4_constants_witness :
    (Bytecode.addAll Bytecode.new [{ display := "1" }, { display := "2" }]).2 = List.range 2 ∧
    (Bytecode.addAll Bytecode.new [{ display := "1" }, { display := "2" }]).1.get_constant 1 =
      some { display := "2" } := by
  have h := C4_constants [{ display := "1" }, { display := "2" }]
  exact ⟨h.1, by rw [h.2 1 (by decide)]; decide⟩

/-- Claim C5: for every chunk of well-formed instructions (with a line entry
per code byte), appending one byte whose tag decodes to no opcode makes
`disassemble` render all the prior instructions exactly as before (the same
body text), then the fixed illegal-instruction marker line, and nothing
further - the marker line is the last line of the output and no byte past
the unrecognized tag is scanned (it is the last byte). -/
theorem C5_illegal_tail (bc : Bytecode) (x : Nat) (line : Int) (name : String)
    (hx : Op.try_from_primitive x = none)
    (hwf : DisWF bc 0)
    (hlen : bc.lines.length = bc.code.length) :
    ∃ body, Bytecode.disassemble bc name = some ("== " ++ name ++ " ==" ++ "\n" ++ body) ∧
      Bytecode.disassemble (bc.write_u8 x line) name =
        some ("== " ++ name ++ " ==" ++ "\n" ++ body ++ fmtNat4 bc.code.length ++ " " ++
          (if 0 < bc.code.length ∧ bc.lines[bc.code.length - 1]? = some line then "   | "
           else fmtLine4 line ++ " ") ++ "Illegal Instruction" ++ "\n") := by
  have hc : ∀ j, j < bc.code.length → (bc.write_u8 x line).code[j]? = bc.code[j]? := by
    intro j hj
    exact List.getElem?_append_left hj
  have hl2 : ∀ j, j < bc.code.length → (bc.write_u8 x line).lines[j]? = bc.lines[j]? := by
    intro j hj
    exact List.getElem?_append_left (by omega)
  obtain ⟨t, ht, ht2⟩ := disassembleLoop_extend bc (bc.write_u8 x line) hlen hc hl2 rfl 0 hwf
  have hstop : Bytecode.disassembleLoop (bc.write_u8 x line) bc.code.length =
      some (fmtNat4 bc.code.length ++ " " ++
        (if 0 < bc.code.length ∧ (bc.write_u8 x line).lines[bc.code.length - 1]? = some line
         then "   | " else fmtLine4 line ++ " ") ++ "Illegal Instruction" ++ "\n") := by
    apply disassembleLoop_illegal (bc.write_u8 x line) bc.code.length line x
    · show bc.code.length < (bc.code ++ [x]).length
      simp
    · show (bc.lines ++ [line])[bc.code.length]? = some line
      rw [← hlen]
      exact List.getElem?_concat_length bc.lines line
    · show (bc.code ++ [x])[bc.code.length]? = some x
      exact List.getElem?_concat_length bc.code x
    · exact hx
  have hcond : (if 0 < bc.code.length ∧
        (bc.write_u8 x line).lines[bc.code.length - 1]? = some line
      then ("   | " : String) else fmtLine4 line ++ " ") =
      (if 0 < bc.code.length ∧ bc.lines[bc.code.length - 1]? = some line
       then "   | " else fmtLine4 line ++ " ") := by
    by_cases h0 : 0 < bc.code.length
    · rw [hl2 (bc.code.length - 1) (by omega)]
    · simp [h0]
  rw [hstop, hcond] at ht2
  refine ⟨t, ?_, ?_⟩
  · rw [Bytecode.disassemble, ht]
  · rw [Bytecode.disassemble, ht2]
    simp [String.append_assoc]

/-- Witness for C5: the example chunk with a byte 9 (no opcode) appended at
line 7. -/
theorem C5_illegal_tail_witness :
    ∃ body, Bytecode.disassemble c2Chunk "w" = some ("== " ++ "w" ++ " ==" ++ "\n" ++ body) ∧
      Bytecode.disassemble (c2Chunk.write_u8 9 7) "w" =
        some ("== " ++ "w" ++ " ==" ++ "\n" ++ body ++ fmtNat4 c2Chunk.code.length ++ " " ++
          (if 0 < c2Chunk.code.length ∧ c2Chunk.lines[c2Chunk.code.length - 1]? = some 7
           then "   | " else fmtLine4 7 ++ " ") ++ "Illegal Instruction" ++ "\n") :=
  C5_illegal_tail c2Chunk 9 7 "w" (by decide)
    (DisWF.step 0 2 Op.ConstantSmall (by decide) (by decide) (by decide)
      (DisWF.step 2 1 Op.Negate (by decide) (by decide) (by decide)
        (DisWF.step 3 0 Op.Ret (by decide) (by decide) (by decide) DisWF.done)))
    (by decide)

/-- Counterexample to claim C6 as stated: in `c6Chunk` the `LoadConstant`
tag byte is recorded at source line 1 and the `Return` instruction at source
line 5, so the two instructions have different lines, yet the rendered line
column of the `Return` line is the placeholder.  The code compares the line
of the current tag byte with the line of the immediately preceding byte of
code - here the operand byte, recorded at line 5 - not with the line of the
previous instruction. -/
theorem C6_counterexample :
    Bytecode.disassemble c6Chunk "t" =
      some "== t ==\n0000    1 OP_CONSTANT      0000 1\n0002    | OP_RETURN\n" ∧
    c6Chunk.lines[0]? = some 1 ∧ c6Chunk.lines[2]? = some 5 := by
  refine ⟨?_, rfl, rfl⟩
  have h3 : Bytecode.disassembleLoop c6Chunk 3 = some "" :=
    disassembleLoop_stop _ _ (by decide)
  have h2 : Bytecode.disassembleLoop c6Chunk 2 = some "0002    | OP_RETURN\n" := by
    rw [disassembleLoop_step c6Chunk 2 5 0 Op.Ret "OP_RETURN" (by decide) (by decide) (by decide)
      (by decide) (by decide)]
    rw [show Bytecode.disassembleLoop c6Chunk (2 + 1 + Op.Ret.operand_count) = some "" from h3]
    rfl
  have h0 : Bytecode.disassembleLoop c6Chunk 0 =
      some "0000    1 OP_CONSTANT      0000 1\n0002    | OP_RETURN\n" := by
    rw [disassembleLoop_step c6Chunk 0 1 2 Op.ConstantSmall "OP_CONSTANT      0000 1" (by decide)
      (by decide) (by decide) (by decide) (by decide)]
    rw [show Bytecode.disassembleLoop c6Chunk (0 + 1 + Op.ConstantSmall.operand_count) =
      some "0002    | OP_RETURN\n" from h2]
    rfl
  rw [Bytecode.disassemble, h0]
  rfl

/-- Claim C6 as amended: in the output of the disassembly loop, for every
instruction after the first (tag byte at offset i with 0 < i), the line
column prints the placeholder exactly when the line recorded for the byte at
offset i equals the line recorded for the byte at offset i - 1 (the last
byte of the previous instruction, which may be an operand byte), and prints
the right-aligned numeric line otherwise. -/
theorem C6_line_column (bc : Bytecode) (i : Nat) (l lp : Int) (s : String)
    (h0 : 0 < i) (hin : i < bc.code.length)
    (hl : bc.lines[i]? = some l) (hlp : bc.lines[i - 1]? = some lp)
    (hs : Bytecode.disassembleLoop bc i = some s) :
    ∃ tail, s = (fmtNat4 i ++ " " ++
      (if lp = l then "   | " else fmtLine4 l ++ " ")) ++ tail := by
  have hb : bc.code[i]? = some bc.code[i] := List.getElem?_eq_getElem hin
  have hcond : (if 0 < i ∧ bc.lines[i - 1]? = some l then ("   | " : String)
      else fmtLine4 l ++ " ") = (if lp = l then "   | " else fmtLine4 l ++ " ") := by
    rw [hlp]
    simp [h0, eq_comm]
  cases hdec : Op.try_from_primitive bc.code[i] with
  | none =>
    rw [disassembleLoop_illegal bc i l bc.code[i] hin hl hb hdec, hcond] at hs
    refine ⟨"Illegal Instruction" ++ "\n", ?_⟩
    injection hs with hs
    rw [← hs]
    simp [String.append_assoc]
  | some op =>
    cases htxt : bc.instrText i op with
    | none =>
      rw [disassembleLoop_notxt bc i l bc.code[i] op hin hl hb hdec htxt] at hs
      exact absurd hs (by simp)
    | some txt =>
      rw [disassembleLoop_step bc i l bc.code[i] op txt hin hl hb hdec htxt, hcond] at hs
      cases hr : Bytecode.disassembleLoop bc (i + 1 + op.operand_count) with
      | none => rw [hr] at hs; exact absurd hs (by simp)
      | some rest =>
        rw [hr] at hs
        refine ⟨txt ++ "\n" ++ rest, ?_⟩
        injection hs with hs
        rw [← hs]
        simp [String.append_assoc]

/-- Witness for the amended C6 at the `Return` instruction of `c6Chunk`:
the byte before it carries the same line 5, and the placeholder is
printed. -/
theorem C6_line_column_witness :
    ∃ tail, "0002    | OP_RETURN\n" = (fmtNat4 2 ++ " " ++
      (if (5 : Int) = 5 then "   | " else fmtLine4 5 ++ " ")) ++ tail :=
  C6_line_column c6Chunk 2 5 5 "0002    | OP_RETURN\n" (by decide) (by decide) (by decide)
    (by decide)
    (by
      rw [disassembleLoop_step c6Chunk 2 5 0 Op.Ret "OP_RETURN" (by decide) (by decide) (by decide)
        (by decide) (by decide)]
      rw [show Bytecode.disassembleLoop c6Chunk (2 + 1 + Op.Ret.operand_count) = some "" from
        disassembleLoop_stop c6Chunk 3 (by decide)]
      rfl)

/-- Claim C7: on a chunk built by any construction sequence, `get_constant`
fails (the `unwrap` panics, modelled as `none`) exactly when the index is at
least the number of `add_constant` calls made so far, and whenever it
returns a value, that value is exactly the one stored at that index - never
a substitute. -/
theorem C7_get_constant (ops : List BuildOp) (index : Nat) :
    ((Bytecode.runBuild Bytecode.new ops).get_constant index = none ↔ countAdds ops ≤ index) ∧
    ∀ v, (Bytecode.runBuild Bytecode.new ops).get_constant index = some v →
      (Bytecode.runBuild Bytecode.new ops).constants[index]? = some v := by
  have h := (runBuild_lengths ops Bytecode.new).2.2
  refine ⟨?_, fun v hv => hv⟩
  rw [Bytecode.get_constant, List.getElem?_eq_none_iff, h]
  simp [Bytecode.new]

/-- Witness for C7 on a chunk with exactly one constant: index 1 fails,
index 0 returns the stored value. -/
theorem C7_get_constant_witness :
    ((Bytecode.runBuild Bytecode.new [BuildOp.addc { display := "1" }]).get_constant 1 = none ↔
      countAdds [BuildOp.addc { display := "1" }] ≤ 1) ∧
    (Bytecode.runBuild Bytecode.new [BuildOp.addc { display := "1" }]).constants[0]? =
      some { display := "1" } :=
  ⟨(C7_get_constant [BuildOp.addc { display := "1" }] 1).1,
   (C7_get_constant [BuildOp.addc { display := "1" }] 0).2 { display := "1" } (by decide)⟩

/-- Claim C8: the decode and advance operations `get_op`, `get_u8` and `inc`
are declared only at the type `Ip IpState.Initialized`, so applying them to
an unbound cursor is a type error, not a runtime check.  The theorem records
the facts this relies on: the two typestates are distinct (hence
`Ip IpState.Uninitialized` never has the type those operations require),
`create_uninitialized` produces the unbound cursor, which holds the null
pointer and no chunk storage, and the only producer of a bound cursor in the
chunk interface, `get_base_ip`, binds it to the storage of a chunk. -/
theorem C8_typestate :
    IpState.Uninitialized ≠ IpState.Initialized ∧
    Ip.create_uninitialized.ptr = none ∧
    ∀ bc : Bytecode, (Bytecode.get_base_ip bc).ptr = some (bc.code, 0) :=
  ⟨by simp, rfl, fun _ => rfl⟩

/-- Claim C9: `disassemble` is partial on malformed chunks.  Appending a
`LoadConstant` tag as the last byte of a well-formed chunk (operand byte
missing) makes `disassemble` panic (`none`) on the out-of-bounds
`code[op_index + 1]` read, and appending a `LoadConstant` tag followed by an
operand byte that is not below the constant-pool length makes it panic on
the `constants[constant]` read - in both cases no rendered string is
returned and the illegal-instruction path is not taken. -/
theorem C9_partial_on_malformed (bc : Bytecode) (line1 line2 : Int) (idx : Nat) (name : String)
    (hwf : DisWF bc 0)
    (hlen : bc.lines.length = bc.code.length)
    (hidx : bc.constants.length ≤ idx) :
    Bytecode.disassemble (bc.write_u8 (Op.tag Op.ConstantSmall) line1) name = none ∧
    Bytecode.disassemble ((bc.write_u8 (Op.tag Op.ConstantSmall) line1).write_u8 idx line2) name
      = none := by
  constructor
  · have hc : ∀ j, j < bc.code.length →
        (bc.write_u8 (Op.tag Op.ConstantSmall) line1).code[j]? = bc.code[j]? := by
      intro j hj
      exact List.getElem?_append_left hj
    have hl2 : ∀ j, j < bc.code.length →
        (bc.write_u8 (Op.tag Op.ConstantSmall) line1).lines[j]? = bc.lines[j]? := by
      intro j hj
      exact List.getElem?_append_left (by omega)
    obtain ⟨t, ht, ht2⟩ :=
      disassembleLoop_extend bc (bc.write_u8 (Op.tag Op.ConstantSmall) line1) hlen hc hl2 rfl 0 hwf
    have hstop : Bytecode.disassembleLoop (bc.write_u8 (Op.tag Op.ConstantSmall) line1)
        bc.code.length = none := by
      apply disassembleLoop_notxt (bc.write_u8 (Op.tag Op.ConstantSmall) line1)
        bc.code.length line1 (Op.tag Op.ConstantSmall) Op.ConstantSmall
      · show bc.code.length < (bc.code ++ [Op.tag Op.ConstantSmall]).length
        simp
      · show (bc.lines ++ [line1])[bc.code.length]? = some line1
        rw [← hlen]
        exact List.getElem?_concat_length bc.lines line1
      · show (bc.code ++ [Op.tag Op.ConstantSmall])[bc.code.length]? = some (Op.tag Op.ConstantSmall)
        exact List.getElem?_concat_length bc.code (Op.tag Op.ConstantSmall)
      · exact Op.tag_roundtrip Op.ConstantSmall
      · rw [Bytecode.instrText]
        have : (bc.write_u8 (Op.tag Op.ConstantSmall) line1).code[bc.code.length + 1]? = none := by
          apply List.getElem?_eq_none_iff.mpr
          show (bc.code ++ [Op.tag Op.ConstantSmall]).length ≤ bc.code.length + 1
          simp
        rw [this]
    rw [hstop] at ht2
    rw [Bytecode.disassemble, ht2]
    rfl
  · have hc : ∀ j, j < bc.code.length →
        ((bc.write_u8 (Op.tag Op.ConstantSmall) line1).write_u8 idx line2).code[j]? =
          bc.code[j]? := by
      intro j hj
      have step1 : ((bc.code ++ [Op.tag Op.ConstantSmall]) ++ [idx])[j]? =
          (bc.code ++ [Op.tag Op.ConstantSmall])[j]? :=
        List.getElem?_append_left (by simp; omega)
      show ((bc.code ++ [Op.tag Op.ConstantSmall]) ++ [idx])[j]? = bc.code[j]?
      rw [step1]
      exact List.getElem?_append_left hj
    have hl2 : ∀ j, j < bc.code.length →
        ((bc.write_u8 (Op.tag Op.ConstantSmall) line1).write_u8 idx line2).lines[j]? =
          bc.lines[j]? := by
      intro j hj
      have step1 : ((bc.lines ++ [line1]) ++ [line2])[j]? = (bc.lines ++ [line1])[j]? :=
        List.getElem?_append_left (by simp; omega)
      show ((bc.lines ++ [line1]) ++ [line2])[j]? = bc.lines[j]?
      rw [step1]
      exact List.getElem?_append_left (by omega)
    obtain ⟨t, ht, ht2⟩ := disassembleLoop_extend bc
      ((bc.write_u8 (Op.tag Op.ConstantSmall) line1).write_u8 idx line2) hlen hc hl2 rfl 0 hwf
    have hstop : Bytecode.disassembleLoop
        ((bc.write_u8 (Op.tag Op.ConstantSmall) line1).write_u8 idx line2)
        bc.code.length = none := by
      apply disassembleLoop_notxt _ bc.code.length line1 (Op.tag Op.ConstantSmall) Op.ConstantSmall
      · show bc.code.length < ((bc.code ++ [Op.tag Op.ConstantSmall]) ++ [idx]).length
        simp
      · have step1 : ((bc.lines ++ [line1]) ++ [line2])[bc.code.length]? =
            (bc.lines ++ [line1])[bc.code.length]? :=
          List.getElem?_append_left (by simp; omega)
        show ((bc.lines ++ [line1]) ++ [line2])[bc.code.length]? = some line1
        rw [step1, ← hlen]
        exact List.getElem?_concat_length bc.lines line1
      · have step1 : ((bc.code ++ [Op.tag Op.ConstantSmall]) ++ [idx])[bc.code.length]? =
            (bc.code ++ [Op.tag Op.ConstantSmall])[bc.code.length]? :=
          List.getElem?_append_left (by simp)
        show ((bc.code ++ [Op.tag Op.ConstantSmall]) ++ [idx])[bc.code.length]? =
          some (Op.tag Op.ConstantSmall)
        rw [step1]
        exact List.getElem?_concat_length bc.code (Op.tag Op.ConstantSmall)
      · exact Op.tag_roundtrip Op.ConstantSmall
      · rw [Bytecode.instrText]
        have h1 : ((bc.write_u8 (Op.tag Op.ConstantSmall) line1).write_u8 idx line2).code[
            bc.code.length + 1]? = some idx := by
          show ((bc.code ++ [Op.tag Op.ConstantSmall]) ++ [idx])[bc.code.length + 1]? = some idx
          have : bc.code.length + 1 = (bc.code ++ [Op.tag Op.ConstantSmall]).length := by simp
          rw [this]
          exact List.getElem?_concat_length _ idx
        have h2 : ((bc.write_u8 (Op.tag Op.ConstantSmall) line1).write_u8 idx
            line2).constants[idx]? = none := by
          apply List.getElem?_eq_none_iff.mpr
          exact hidx
        simp only [h1, h2]
    rw [hstop] at ht2
    rw [Bytecode.disassemble, ht2]
    rfl

/-- Witness for C9 on the empty chunk: a lone `LoadConstant` tag, and a
`LoadConstant` with operand index 0 against an empty constant pool, both
make `disassemble` fail. -/
theorem C9_partial_on_malformed_witness :
    Bytecode.disassemble (Bytecode.new.write_u8 (Op.tag Op.ConstantSmall) 1) "x" = none ∧
    Bytecode.disassemble ((Bytecode.new.write_u8 (Op.tag Op.ConstantSmall) 1).write_u8 0 2) "x" =
      none :=
  C9_partial_on_malformed Bytecode.new 1 2 0 "x" DisWF.done rfl (by decide)

/-- Claim C10: on every chunk state, `write_u8` leaves the constants
sequence unchanged (it touches only `code` and `lines`), and `add_constant`
leaves the `code` and `lines` sequences unchanged (it touches only
`constants`). -/
theorem C10_frame (bc : Bytecode) (byte : Nat) (line : Int) (v : LoxValue) :
    (bc.write_u8 byte line).constants = bc.constants ∧
    ((bc.add_constant v).1).code = bc.code ∧
    ((bc.add_constant v).1).lines = bc.lines :=
  ⟨rfl, rfl, rfl⟩

end Loxize
